import Mathlib

/-!
# Verification of the triangulated surface-area estimator

Shallow embedding of `surface_area` from `src/SurfaceArea.py` over the reals.
The grid (`DEM`) is a total function `ℕ → ℕ → ℝ` together with explicit
`rows`/`cols` bounds; the numpy slice `DEM[0:-1, 0:-1]` etc. becomes index
shifting, and the two `np.sum` calls become finite sums over
`Finset.range (rows - 1) × Finset.range (cols - 1)`.  The float operations
`** 2.`, `** 0.5` and `np.sqrt` are embedded as exact real `^ 2` and
`Real.sqrt`.
-/

noncomputable section

/-- `m1 = ((DEM[0:-1, 0:-1] - DEM[0:-1, 1:]) ** 2.0 + resolution_squared) ** 0.5`:
3-D length of the top edge of the 2×2 neighborhood at `(i, j)`. -/
def m1 (DEM : ℕ → ℕ → ℝ) (resolution : ℝ) (i j : ℕ) : ℝ :=
  Real.sqrt ((DEM i j - DEM i (j+1)) ^ 2 + resolution ^ 2)

/-- `m2 = ((DEM[0:-1, 0:-1] - DEM[1:, 0:-1]) ** 2.0 + resolution_squared) ** 0.5`:
3-D length of the left edge. -/
def m2 (DEM : ℕ → ℕ → ℝ) (resolution : ℝ) (i j : ℕ) : ℝ :=
  Real.sqrt ((DEM i j - DEM (i+1) j) ^ 2 + resolution ^ 2)

/-- `m3 = ((DEM[0:-1, 0:-1] - DEM[1:, 1:]) ** 2.0 + cross_distance_squared) ** 0.5`:
3-D length of the TL–BR diagonal, with `cross_distance_squared = 2.0 * resolution ** 2.`. -/
def m3 (DEM : ℕ → ℕ → ℝ) (resolution : ℝ) (i j : ℕ) : ℝ :=
  Real.sqrt ((DEM i j - DEM (i+1) (j+1)) ^ 2 + 2 * resolution ^ 2)

/-- `m4 = ((DEM[0:-1, 1:] - DEM[1:, 1:]) ** 2.0 + resolution_squared) ** 0.5`:
3-D length of the right edge. -/
def m4 (DEM : ℕ → ℕ → ℝ) (resolution : ℝ) (i j : ℕ) : ℝ :=
  Real.sqrt ((DEM i (j+1) - DEM (i+1) (j+1)) ^ 2 + resolution ^ 2)

/-- `m5 = ((DEM[1:, 0:-1] - DEM[1:, 1:]) ** 2.0 + resolution_squared) ** 0.5`:
3-D length of the bottom edge. -/
def m5 (DEM : ℕ → ℕ → ℝ) (resolution : ℝ) (i j : ℕ) : ℝ :=
  Real.sqrt ((DEM (i+1) j - DEM (i+1) (j+1)) ^ 2 + resolution ^ 2)

/-- `s1 = 0.5 * (m3 + m5 + m2)`: semiperimeter of the lower triangle. -/
def s1 (DEM : ℕ → ℕ → ℝ) (resolution : ℝ) (i j : ℕ) : ℝ :=
  0.5 * (m3 DEM resolution i j + m5 DEM resolution i j + m2 DEM resolution i j)

/-- `s2 = 0.5 * (m3 + m4 + m1)`: semiperimeter of the upper triangle. -/
def s2 (DEM : ℕ → ℕ → ℝ) (resolution : ℝ) (i j : ℕ) : ℝ :=
  0.5 * (m3 DEM resolution i j + m4 DEM resolution i j + m1 DEM resolution i j)

/-- The estimator itself:
`area = np.sum(np.sqrt(s1*(s1-m3)*(s1-m5)*(s1-m2))) + np.sum(np.sqrt(s2*(s2-m3)*(s2-m4)*(s2-m1)))`.
The slices are empty when `rows < 2` or `cols < 2`, matching `Finset.range (rows - 1)`
with truncated subtraction. -/
def surface_area (DEM : ℕ → ℕ → ℝ) (rows cols : ℕ) (resolution : ℝ) : ℝ :=
  (∑ i ∈ Finset.range (rows - 1), ∑ j ∈ Finset.range (cols - 1),
      Real.sqrt (s1 DEM resolution i j * (s1 DEM resolution i j - m3 DEM resolution i j) *
        (s1 DEM resolution i j - m5 DEM resolution i j) *
        (s1 DEM resolution i j - m2 DEM resolution i j)))
  + (∑ i ∈ Finset.range (rows - 1), ∑ j ∈ Finset.range (cols - 1),
      Real.sqrt (s2 DEM resolution i j * (s2 DEM resolution i j - m3 DEM resolution i j) *
        (s2 DEM resolution i j - m4 DEM resolution i j) *
        (s2 DEM resolution i j - m1 DEM resolution i j)))

/-- 3-D area contribution of the upper triangle of the neighborhood at `(i, j)`,
in closed form: half the cross-product norm `|r| * sqrt(d1² + d4² + r²) / 2`. -/
def upTri (DEM : ℕ → ℕ → ℝ) (r : ℝ) (i j : ℕ) : ℝ :=
  Real.sqrt ((DEM i j - DEM i (j+1)) ^ 2 + (DEM i (j+1) - DEM (i+1) (j+1)) ^ 2 + r ^ 2)

/-- 3-D area contribution of the lower triangle of the neighborhood at `(i, j)`,
in closed form: half the cross-product norm `|r| * sqrt(d2² + d5² + r²) / 2`. -/
def loTri (DEM : ℕ → ℕ → ℝ) (r : ℝ) (i j : ℕ) : ℝ :=
  Real.sqrt ((DEM i j - DEM (i+1) j) ^ 2 + (DEM (i+1) j - DEM (i+1) (j+1)) ^ 2 + r ^ 2)

/-- Heron's product for sides `A = sqrt((p+q)²+2r²)`, `B = sqrt(q²+r²)`, `C = sqrt(p²+r²)`
collapses: the radicand is exactly `(r/2)² * (p² + q² + r²)`. -/
theorem heron_radicand (A B C p q r : ℝ)
    (hA : A ^ 2 = (p + q) ^ 2 + 2 * r ^ 2)
    (hB : B ^ 2 = q ^ 2 + r ^ 2)
    (hC : C ^ 2 = p ^ 2 + r ^ 2) :
    0.5 * (A + B + C) * (0.5 * (A + B + C) - A) * (0.5 * (A + B + C) - B) *
      (0.5 * (A + B + C) - C) = (r / 2) ^ 2 * (p ^ 2 + q ^ 2 + r ^ 2) := by
  have e0 : 0.5 * (A + B + C) * (0.5 * (A + B + C) - A) * (0.5 * (A + B + C) - B) *
      (0.5 * (A + B + C) - C)
      = (2 * (A ^ 2) * (B ^ 2) + 2 * (B ^ 2) * (C ^ 2) + 2 * (C ^ 2) * (A ^ 2)
        - (A ^ 2) ^ 2 - (B ^ 2) ^ 2 - (C ^ 2) ^ 2) / 16 := by
    ring
  rw [e0, hA, hB, hC]
  ring

/-- Square root of Heron's product for such sides: `|r|/2 * sqrt(p² + q² + r²)`. -/
theorem heron_sqrt (A B C p q r : ℝ)
    (hA : A ^ 2 = (p + q) ^ 2 + 2 * r ^ 2)
    (hB : B ^ 2 = q ^ 2 + r ^ 2)
    (hC : C ^ 2 = p ^ 2 + r ^ 2) :
    Real.sqrt (0.5 * (A + B + C) * (0.5 * (A + B + C) - A) * (0.5 * (A + B + C) - B) *
      (0.5 * (A + B + C) - C)) = |r| / 2 * Real.sqrt (p ^ 2 + q ^ 2 + r ^ 2) := by
  rw [heron_radicand A B C p q r hA hB hC, Real.sqrt_mul (sq_nonneg _),
    Real.sqrt_sq_eq_abs, abs_div]
  norm_num

/-- The lower-triangle Heron term at `(i, j)` equals `|r|/2 * loTri`. -/
theorem sqrt_rad_lower (DEM : ℕ → ℕ → ℝ) (r : ℝ) (i j : ℕ) :
    Real.sqrt (s1 DEM r i j * (s1 DEM r i j - m3 DEM r i j) *
      (s1 DEM r i j - m5 DEM r i j) * (s1 DEM r i j - m2 DEM r i j))
    = |r| / 2 * loTri DEM r i j := by
  have hA : m3 DEM r i j ^ 2
      = ((DEM i j - DEM (i+1) j) + (DEM (i+1) j - DEM (i+1) (j+1))) ^ 2 + 2 * r ^ 2 := by
    rw [show ((DEM i j - DEM (i+1) j) + (DEM (i+1) j - DEM (i+1) (j+1))) ^ 2
        = (DEM i j - DEM (i+1) (j+1)) ^ 2 from by ring]
    exact Real.sq_sqrt (by positivity)
  have hB : m5 DEM r i j ^ 2 = (DEM (i+1) j - DEM (i+1) (j+1)) ^ 2 + r ^ 2 :=
    Real.sq_sqrt (by positivity)
  have hC : m2 DEM r i j ^ 2 = (DEM i j - DEM (i+1) j) ^ 2 + r ^ 2 :=
    Real.sq_sqrt (by positivity)
  simp only [s1, loTri]
  exact heron_sqrt _ _ _ _ _ _ hA hB hC

/-- The upper-triangle Heron term at `(i, j)` equals `|r|/2 * upTri`. -/
theorem sqrt_rad_upper (DEM : ℕ → ℕ → ℝ) (r : ℝ) (i j : ℕ) :
    Real.sqrt (s2 DEM r i j * (s2 DEM r i j - m3 DEM r i j) *
      (s2 DEM r i j - m4 DEM r i j) * (s2 DEM r i j - m1 DEM r i j))
    = |r| / 2 * upTri DEM r i j := by
  have hA : m3 DEM r i j ^ 2
      = ((DEM i j - DEM i (j+1)) + (DEM i (j+1) - DEM (i+1) (j+1))) ^ 2 + 2 * r ^ 2 := by
    rw [show ((DEM i j - DEM i (j+1)) + (DEM i (j+1) - DEM (i+1) (j+1))) ^ 2
        = (DEM i j - DEM (i+1) (j+1)) ^ 2 from by ring]
    exact Real.sq_sqrt (by positivity)
  have hB : m4 DEM r i j ^ 2 = (DEM i (j+1) - DEM (i+1) (j+1)) ^ 2 + r ^ 2 :=
    Real.sq_sqrt (by positivity)
  have hC : m1 DEM r i j ^ 2 = (DEM i j - DEM i (j+1)) ^ 2 + r ^ 2 :=
    Real.sq_sqrt (by positivity)
  simp only [s2, upTri]
  exact heron_sqrt _ _ _ _ _ _ hA hB hC

/-- Closed form of the estimator: per 2×2 neighborhood it contributes
`|r|/2 * (upTri + loTri)`. -/
theorem surface_area_eq (DEM : ℕ → ℕ → ℝ) (rows cols : ℕ) (r : ℝ) :
    surface_area DEM rows cols r
    = ∑ i ∈ Finset.range (rows - 1), ∑ j ∈ Finset.range (cols - 1),
        |r| / 2 * (upTri DEM r i j + loTri DEM r i j) := by
  unfold surface_area
  have hlo : (∑ i ∈ Finset.range (rows - 1), ∑ j ∈ Finset.range (cols - 1),
      Real.sqrt (s1 DEM r i j * (s1 DEM r i j - m3 DEM r i j) *
        (s1 DEM r i j - m5 DEM r i j) * (s1 DEM r i j - m2 DEM r i j)))
      = ∑ i ∈ Finset.range (rows - 1), ∑ j ∈ Finset.range (cols - 1),
        |r| / 2 * loTri DEM r i j := by
    refine Finset.sum_congr rfl fun i _ => Finset.sum_congr rfl fun j _ => ?_
    exact sqrt_rad_lower DEM r i j
  have hup : (∑ i ∈ Finset.range (rows - 1), ∑ j ∈ Finset.range (cols - 1),
      Real.sqrt (s2 DEM r i j * (s2 DEM r i j - m3 DEM r i j) *
        (s2 DEM r i j - m4 DEM r i j) * (s2 DEM r i j - m1 DEM r i j)))
      = ∑ i ∈ Finset.range (rows - 1), ∑ j ∈ Finset.range (cols - 1),
        |r| / 2 * upTri DEM r i j := by
    refine Finset.sum_congr rfl fun i _ => Finset.sum_congr rfl fun j _ => ?_
    exact sqrt_rad_upper DEM r i j
  rw [hlo, hup, ← Finset.sum_add_distrib]
  refine Finset.sum_congr rfl fun i _ => ?_
  rw [← Finset.sum_add_distrib]
  refine Finset.sum_congr rfl fun j _ => ?_
  ring

/-- Each upper-triangle contribution is at least `|r|` (its radicand dominates `r²`). -/
theorem upTri_ge (DEM : ℕ → ℕ → ℝ) (r : ℝ) (i j : ℕ) : |r| ≤ upTri DEM r i j := by
  simp only [upTri]
  rw [← Real.sqrt_sq_eq_abs]
  apply Real.sqrt_le_sqrt
  nlinarith [sq_nonneg (DEM i j - DEM i (j+1)), sq_nonneg (DEM i (j+1) - DEM (i+1) (j+1))]

/-- Each lower-triangle contribution is at least `|r|`. -/
theorem loTri_ge (DEM : ℕ → ℕ → ℝ) (r : ℝ) (i j : ℕ) : |r| ≤ loTri DEM r i j := by
  simp only [loTri]
  rw [← Real.sqrt_sq_eq_abs]
  apply Real.sqrt_le_sqrt
  nlinarith [sq_nonneg (DEM i j - DEM (i+1) j), sq_nonneg (DEM (i+1) j - DEM (i+1) (j+1))]

/-- On a grid that is constant (value `c`) on all in-range cells, the estimator
evaluates exactly to the flat projected area, for any resolution. -/
theorem flat_eval (DEM : ℕ → ℕ → ℝ) (rows cols : ℕ) (r c : ℝ)
    (hflat : ∀ i < rows, ∀ j < cols, DEM i j = c) :
    surface_area DEM rows cols r
    = ((rows - 1 : ℕ) : ℝ) * ((cols - 1 : ℕ) : ℝ) * r ^ 2 := by
  rw [surface_area_eq]
  have hterm : ∀ i ∈ Finset.range (rows - 1), ∀ j ∈ Finset.range (cols - 1),
      |r| / 2 * (upTri DEM r i j + loTri DEM r i j) = r ^ 2 := by
    intro i hi j hj
    rw [Finset.mem_range] at hi hj
    simp only [upTri, loTri]
    rw [hflat i (by omega) j (by omega), hflat i (by omega) (j+1) (by omega),
      hflat (i+1) (by omega) j (by omega), hflat (i+1) (by omega) (j+1) (by omega)]
    have hz : (c - c) ^ 2 = 0 := by ring
    rw [hz]
    rw [show (0 : ℝ) + 0 + r ^ 2 = r ^ 2 from by ring, Real.sqrt_sq_eq_abs]
    rw [show |r| / 2 * (|r| + |r|) = |r| ^ 2 from by ring, sq_abs]
  calc (∑ i ∈ Finset.range (rows - 1), ∑ j ∈ Finset.range (cols - 1),
        |r| / 2 * (upTri DEM r i j + loTri DEM r i j))
      = ∑ i ∈ Finset.range (rows - 1), ∑ j ∈ Finset.range (cols - 1), r ^ 2 :=
        Finset.sum_congr rfl fun i hi => Finset.sum_congr rfl fun j hj => hterm i hi j hj
    _ = ((rows - 1 : ℕ) : ℝ) * ((cols - 1 : ℕ) : ℝ) * r ^ 2 := by
        simp [Finset.sum_const, Finset.card_range, nsmul_eq_mul]
        ring

/-- C2: for every grid with `rows ≥ 2` and `cols ≥ 2` whose elevation values are all
equal, and every resolution `r > 0`, `surface_area` returns exactly
`(rows-1)*(cols-1)*r*r`. -/
theorem surface_area_flat_grid (DEM : ℕ → ℕ → ℝ) (rows cols : ℕ) (r c : ℝ)
    (h2r : 2 ≤ rows) (h2c : 2 ≤ cols) (hr : 0 < r)
    (hflat : ∀ i < rows, ∀ j < cols, DEM i j = c) :
    surface_area DEM rows cols r
    = ((rows - 1 : ℕ) : ℝ) * ((cols - 1 : ℕ) : ℝ) * (r * r) := by
  rw [flat_eval DEM rows cols r c hflat]
  ring

/-- C2 witness: the constant 2×2 grid of elevation 7 at resolution 1. -/
theorem surface_area_flat_grid_witness :
    2 ≤ 2 ∧ (0 : ℝ) < 1 ∧ (∀ i < 2, ∀ j < 2, (fun _ _ => (7 : ℝ)) i j = 7) ∧
    surface_area (fun _ _ => (7 : ℝ)) 2 2 1
      = ((2 - 1 : ℕ) : ℝ) * ((2 - 1 : ℕ) : ℝ) * (1 * 1) :=
  ⟨le_refl 2, by norm_num, fun i _ j _ => rfl,
    surface_area_flat_grid (fun _ _ => (7 : ℝ)) 2 2 1 7 (le_refl 2) (le_refl 2)
      (by norm_num) (fun i _ j _ => rfl)⟩

/-- C7: a grid with fewer than 2 rows or fewer than 2 columns yields exactly 0
(the slices are empty, so both sums are empty). -/
theorem surface_area_degenerate (DEM : ℕ → ℕ → ℝ) (rows cols : ℕ) (r : ℝ)
    (h : rows < 2 ∨ cols < 2) (hr : 0 < r) :
    surface_area DEM rows cols r = 0 := by
  unfold surface_area
  rcases h with h | h
  · rw [show rows - 1 = 0 from by omega]
    simp
  · rw [show cols - 1 = 0 from by omega]
    simp

/-- C7 witness: a single-row grid at resolution 1. -/
theorem surface_area_degenerate_witness :
    ((1 : ℕ) < 2 ∨ (3 : ℕ) < 2) ∧ (0 : ℝ) < 1 ∧
    surface_area (fun _ _ => (5 : ℝ)) 1 3 1 = 0 :=
  ⟨Or.inl (by norm_num), by norm_num,
    surface_area_degenerate (fun _ _ => (5 : ℝ)) 1 3 1 (Or.inl (by norm_num)) (by norm_num)⟩

/-- C9: adding the same constant `c` to every elevation value leaves the result
unchanged (only elevation differences enter the computation). -/
theorem surface_area_translate (DEM : ℕ → ℕ → ℝ) (rows cols : ℕ) (r c : ℝ)
    (hr : 0 < r) :
    surface_area (fun i j => DEM i j + c) rows cols r = surface_area DEM rows cols r := by
  rw [surface_area_eq, surface_area_eq]
  refine Finset.sum_congr rfl fun i _ => Finset.sum_congr rfl fun j _ => ?_
  have hu : upTri (fun i j => DEM i j + c) r i j = upTri DEM r i j := by
    simp only [upTri]
    congr 1
    ring
  have hl : loTri (fun i j => DEM i j + c) r i j = loTri DEM r i j := by
    simp only [loTri]
    congr 1
    ring
  rw [hu, hl]

/-- C9 witness: shifting the 3×3 pyramid-like grid by 5 at resolution 1. -/
theorem surface_area_translate_witness :
    (0 : ℝ) < 1 ∧
    surface_area (fun i j => (fun _ _ => (2 : ℝ)) i j + 5) 3 3 1
      = surface_area (fun _ _ => (2 : ℝ)) 3 3 1 :=
  ⟨by norm_num, surface_area_translate (fun _ _ => (2 : ℝ)) 3 3 1 5 (by norm_num)⟩

/-- C10: transposing the grid (and swapping the row/column counts) leaves the result
unchanged: each neighborhood's upper and lower triangles trade places. -/
theorem surface_area_transpose (DEM : ℕ → ℕ → ℝ) (rows cols : ℕ) (r : ℝ)
    (h2r : 2 ≤ rows) (h2c : 2 ≤ cols) (hr : 0 < r) :
    surface_area (fun i j => DEM j i) cols rows r = surface_area DEM rows cols r := by
  rw [surface_area_eq, surface_area_eq, Finset.sum_comm]
  refine Finset.sum_congr rfl fun i _ => Finset.sum_congr rfl fun j _ => ?_
  have hu : upTri (fun a b => DEM b a) r j i = loTri DEM r i j := rfl
  have hl : loTri (fun a b => DEM b a) r j i = upTri DEM r i j := rfl
  rw [hu, hl]
  ring

/-- C10 witness: a concrete 2×3 grid at resolution 1. -/
theorem surface_area_transpose_witness :
    2 ≤ 2 ∧ 2 ≤ 3 ∧ (0 : ℝ) < 1 ∧
    surface_area (fun i j => (fun a b => (a + 2 * b : ℝ)) j i) 3 2 1
      = surface_area (fun a b => (a + 2 * b : ℝ)) 2 3 1 :=
  ⟨le_refl 2, by norm_num, by norm_num,
    surface_area_transpose (fun a b => (a + 2 * b : ℝ)) 2 3 1 (le_refl 2) (by norm_num)
      (by norm_num)⟩

/-- Each neighborhood contributes at least the flat cell area `r²`. -/
theorem term_ge (DEM : ℕ → ℕ → ℝ) (r : ℝ) (i j : ℕ) :
    r ^ 2 ≤ |r| / 2 * (upTri DEM r i j + loTri DEM r i j) := by
  have h1 := upTri_ge DEM r i j
  have h2 := loTri_ge DEM r i j
  have h0 : 0 ≤ |r| := abs_nonneg r
  nlinarith [mul_nonneg h0 (sub_nonneg.mpr h1), mul_nonneg h0 (sub_nonneg.mpr h2), sq_abs r]

/-- If the upper triangle at `(i, j)` contributes exactly `r` (with `r > 0`), its two
elevation differences vanish. -/
theorem upTri_eq_r (DEM : ℕ → ℕ → ℝ) (r : ℝ) (i j : ℕ) (hr : 0 < r)
    (h : upTri DEM r i j = r) :
    DEM i j = DEM i (j+1) ∧ DEM i (j+1) = DEM (i+1) (j+1) := by
  have h0 : 0 ≤ (DEM i j - DEM i (j+1)) ^ 2 + (DEM i (j+1) - DEM (i+1) (j+1)) ^ 2 + r ^ 2 := by
    positivity
  have h2 : upTri DEM r i j ^ 2
      = (DEM i j - DEM i (j+1)) ^ 2 + (DEM i (j+1) - DEM (i+1) (j+1)) ^ 2 + r ^ 2 := by
    simp only [upTri]
    exact Real.sq_sqrt h0
  rw [h] at h2
  have e1 : (DEM i j - DEM i (j+1)) ^ 2 = 0 := by
    nlinarith [sq_nonneg (DEM i j - DEM i (j+1)), sq_nonneg (DEM i (j+1) - DEM (i+1) (j+1))]
  have e2 : (DEM i (j+1) - DEM (i+1) (j+1)) ^ 2 = 0 := by
    nlinarith [sq_nonneg (DEM i j - DEM i (j+1)), sq_nonneg (DEM i (j+1) - DEM (i+1) (j+1))]
  exact ⟨sub_eq_zero.mp (sq_eq_zero_iff.mp e1), sub_eq_zero.mp (sq_eq_zero_iff.mp e2)⟩

/-- If the lower triangle at `(i, j)` contributes exactly `r` (with `r > 0`), its two
elevation differences vanish. -/
theorem loTri_eq_r (DEM : ℕ → ℕ → ℝ) (r : ℝ) (i j : ℕ) (hr : 0 < r)
    (h : loTri DEM r i j = r) :
    DEM i j = DEM (i+1) j ∧ DEM (i+1) j = DEM (i+1) (j+1) := by
  have h0 : 0 ≤ (DEM i j - DEM (i+1) j) ^ 2 + (DEM (i+1) j - DEM (i+1) (j+1)) ^ 2 + r ^ 2 := by
    positivity
  have h2 : loTri DEM r i j ^ 2
      = (DEM i j - DEM (i+1) j) ^ 2 + (DEM (i+1) j - DEM (i+1) (j+1)) ^ 2 + r ^ 2 := by
    simp only [loTri]
    exact Real.sq_sqrt h0
  rw [h] at h2
  have e1 : (DEM i j - DEM (i+1) j) ^ 2 = 0 := by
    nlinarith [sq_nonneg (DEM i j - DEM (i+1) j), sq_nonneg (DEM (i+1) j - DEM (i+1) (j+1))]
  have e2 : (DEM (i+1) j - DEM (i+1) (j+1)) ^ 2 = 0 := by
    nlinarith [sq_nonneg (DEM i j - DEM (i+1) j), sq_nonneg (DEM (i+1) j - DEM (i+1) (j+1))]
  exact ⟨sub_eq_zero.mp (sq_eq_zero_iff.mp e1), sub_eq_zero.mp (sq_eq_zero_iff.mp e2)⟩

/-- If every neighborhood's four elevation differences vanish, the whole (connected)
grid is constant. -/
theorem flat_of_diffs (DEM : ℕ → ℕ → ℝ) (rows cols : ℕ) (h2r : 2 ≤ rows) (h2c : 2 ≤ cols)
    (H : ∀ i, i < rows - 1 → ∀ j, j < cols - 1 →
      ((DEM i j = DEM i (j+1) ∧ DEM i (j+1) = DEM (i+1) (j+1)) ∧
       (DEM i j = DEM (i+1) j ∧ DEM (i+1) j = DEM (i+1) (j+1)))) :
    ∀ i < rows, ∀ j < cols, DEM i j = DEM 0 0 := by
  have hrow : ∀ i, i < rows → ∀ j, j + 1 < cols → DEM i j = DEM i (j+1) := by
    intro i hi j hj
    by_cases hi' : i < rows - 1
    · exact ((H i hi' j (by omega)).1).1
    · have hieq : i = (rows - 2) + 1 := by omega
      subst hieq
      exact ((H (rows - 2) (by omega) j (by omega)).2).2
  have hcol : ∀ i, i + 1 < rows → DEM i 0 = DEM (i+1) 0 := by
    intro i hi
    exact ((H i (by omega) 0 (by omega)).2).1
  have hrow0 : ∀ i, i < rows → ∀ j, j < cols → DEM i j = DEM i 0 := by
    intro i hi j
    induction j with
    | zero => intro _; rfl
    | succ n ih =>
      intro h
      rw [← hrow i hi n (by omega)]
      exact ih (by omega)
  have hcol0 : ∀ i, i < rows → DEM i 0 = DEM 0 0 := by
    intro i
    induction i with
    | zero => intro _; rfl
    | succ n ih =>
      intro h
      rw [← hcol n (by omega)]
      exact ih (by omega)
  intro i hi j hj
  rw [hrow0 i hi j hj, hcol0 i hi]

/-- C3: the result is at least the flat projected area `(rows-1)*(cols-1)*r²`, with
equality exactly when all elevation values in the grid are equal. -/
theorem surface_area_ge_flat_iff (DEM : ℕ → ℕ → ℝ) (rows cols : ℕ) (r : ℝ)
    (h2r : 2 ≤ rows) (h2c : 2 ≤ cols) (hr : 0 < r) :
    ((rows - 1 : ℕ) : ℝ) * ((cols - 1 : ℕ) : ℝ) * r ^ 2 ≤ surface_area DEM rows cols r ∧
    (surface_area DEM rows cols r = ((rows - 1 : ℕ) : ℝ) * ((cols - 1 : ℕ) : ℝ) * r ^ 2 ↔
      ∀ i < rows, ∀ j < cols, ∀ k < rows, ∀ l < cols, DEM i j = DEM k l) := by
  have habs : |r| = r := abs_of_pos hr
  have hflatsum : ((rows - 1 : ℕ) : ℝ) * ((cols - 1 : ℕ) : ℝ) * r ^ 2
      = ∑ i ∈ Finset.range (rows - 1), ∑ j ∈ Finset.range (cols - 1), r ^ 2 := by
    simp [Finset.sum_const, Finset.card_range, nsmul_eq_mul]
    ring
  have hle : ((rows - 1 : ℕ) : ℝ) * ((cols - 1 : ℕ) : ℝ) * r ^ 2
      ≤ surface_area DEM rows cols r := by
    rw [surface_area_eq, hflatsum]
    exact Finset.sum_le_sum fun i _ => Finset.sum_le_sum fun j _ => term_ge DEM r i j
  refine ⟨hle, fun heq => ?_, fun hconst => ?_⟩
  · rw [surface_area_eq, hflatsum] at heq
    have houter := (Finset.sum_eq_sum_iff_of_le
      (fun i _ => Finset.sum_le_sum fun j _ => term_ge DEM r i j)).mp heq.symm
    have hcell : ∀ i ∈ Finset.range (rows - 1), ∀ j ∈ Finset.range (cols - 1),
        r ^ 2 = |r| / 2 * (upTri DEM r i j + loTri DEM r i j) := by
      intro i hi
      exact (Finset.sum_eq_sum_iff_of_le (fun j _ => term_ge DEM r i j)).mp (houter i hi)
    have hd : ∀ i, i < rows - 1 → ∀ j, j < cols - 1 →
        ((DEM i j = DEM i (j+1) ∧ DEM i (j+1) = DEM (i+1) (j+1)) ∧
         (DEM i j = DEM (i+1) j ∧ DEM (i+1) j = DEM (i+1) (j+1))) := by
      intro i hi j hj
      have hc := hcell i (Finset.mem_range.mpr hi) j (Finset.mem_range.mpr hj)
      rw [habs] at hc
      have hup_ge : r ≤ upTri DEM r i j := habs.symm.trans_le (upTri_ge DEM r i j)
      have hlo_ge : r ≤ loTri DEM r i j := habs.symm.trans_le (loTri_ge DEM r i j)
      have hpu : r * upTri DEM r i j ≤ r * r := by
        nlinarith [mul_nonneg hr.le (sub_nonneg.mpr hlo_ge)]
      have hpl : r * loTri DEM r i j ≤ r * r := by
        nlinarith [mul_nonneg hr.le (sub_nonneg.mpr hup_ge)]
      have hup_eq : upTri DEM r i j = r :=
        le_antisymm (le_of_mul_le_mul_left hpu hr) hup_ge
      have hlo_eq : loTri DEM r i j = r :=
        le_antisymm (le_of_mul_le_mul_left hpl hr) hlo_ge
      exact ⟨upTri_eq_r DEM r i j hr hup_eq, loTri_eq_r DEM r i j hr hlo_eq⟩
    have hflat0 := flat_of_diffs DEM rows cols h2r h2c hd
    exact fun i hi j hj k hk l hl => (hflat0 i hi j hj).trans (hflat0 k hk l hl).symm
  · have hc0 : ∀ i < rows, ∀ j < cols, DEM i j = DEM 0 0 :=
      fun i hi j hj => hconst i hi j hj 0 (by omega) 0 (by omega)
    exact flat_eval DEM rows cols r (DEM 0 0) hc0

/-- C3 witness: the constant 2×2 grid at resolution 1 attains the bound with equality. -/
theorem surface_area_ge_flat_iff_witness :
    2 ≤ 2 ∧ (0 : ℝ) < 1 ∧
    (((2 - 1 : ℕ) : ℝ) * ((2 - 1 : ℕ) : ℝ) * 1 ^ 2 ≤ surface_area (fun _ _ => (3 : ℝ)) 2 2 1 ∧
    (surface_area (fun _ _ => (3 : ℝ)) 2 2 1 = ((2 - 1 : ℕ) : ℝ) * ((2 - 1 : ℕ) : ℝ) * 1 ^ 2 ↔
      ∀ i < 2, ∀ j < 2, ∀ k < 2, ∀ l < 2,
        (fun _ _ => (3 : ℝ)) i j = (fun _ _ => (3 : ℝ)) k l)) :=
  ⟨le_refl 2, by norm_num,
    surface_area_ge_flat_iff (fun _ _ => (3 : ℝ)) 2 2 1 (le_refl 2) (le_refl 2) (by norm_num)⟩

/-- The grid with the single cell `(a, b)` raised by `δ` and all other cells unchanged. -/
def updateCell (DEM : ℕ → ℕ → ℝ) (a b : ℕ) (δ : ℝ) : ℕ → ℕ → ℝ :=
  fun x y => if x = a ∧ y = b then DEM x y + δ else DEM x y

/-- Raising cell `(a, b)` by `δ ≥ 0` weakly increases the squared elevation difference
across any edge, provided the raised cell was already at least its edge partner. -/
theorem diff_sq_mono (DEM : ℕ → ℕ → ℝ) (a b : ℕ) (δ : ℝ) (hδ : 0 ≤ δ)
    (x1 y1 x2 y2 : ℕ) (hne : ¬(x1 = x2 ∧ y1 = y2))
    (h1 : x1 = a ∧ y1 = b → DEM x2 y2 ≤ DEM x1 y1)
    (h2 : x2 = a ∧ y2 = b → DEM x1 y1 ≤ DEM x2 y2) :
    (DEM x1 y1 - DEM x2 y2) ^ 2
      ≤ (updateCell DEM a b δ x1 y1 - updateCell DEM a b δ x2 y2) ^ 2 := by
  simp only [updateCell]
  by_cases c1 : x1 = a ∧ y1 = b
  · have c2 : ¬(x2 = a ∧ y2 = b) := by
      rintro ⟨hx, hy⟩
      exact hne ⟨c1.1.trans hx.symm, c1.2.trans hy.symm⟩
    rw [if_pos c1, if_neg c2]
    have hge := h1 c1
    nlinarith [mul_nonneg (sub_nonneg.mpr hge) hδ, sq_nonneg δ]
  · rw [if_neg c1]
    by_cases c2 : x2 = a ∧ y2 = b
    · rw [if_pos c2]
      have hle' := h2 c2
      nlinarith [mul_nonneg (sub_nonneg.mpr hle') hδ, sq_nonneg δ]
    · rw [if_neg c2]

/-- C6 (amended): raising a single cell `(a, b)` by `δ > 0` never decreases the result,
provided the cell's elevation is at least each of its in-grid orthogonal neighbors
(left, right, up, down). -/
theorem surface_area_update_mono (DEM : ℕ → ℕ → ℝ) (rows cols a b : ℕ) (r δ : ℝ)
    (h2r : 2 ≤ rows) (h2c : 2 ≤ cols) (hr : 0 < r) (hδ : 0 < δ)
    (hR : b + 1 < cols → DEM a (b+1) ≤ DEM a b)
    (hL : 0 < b → DEM a (b-1) ≤ DEM a b)
    (hD : a + 1 < rows → DEM (a+1) b ≤ DEM a b)
    (hU : 0 < a → DEM (a-1) b ≤ DEM a b) :
    surface_area DEM rows cols r ≤ surface_area (updateCell DEM a b δ) rows cols r := by
  rw [surface_area_eq, surface_area_eq]
  refine Finset.sum_le_sum fun i hi => Finset.sum_le_sum fun j hj => ?_
  rw [Finset.mem_range] at hi hj
  have hA1 : (DEM i j - DEM i (j+1)) ^ 2
      ≤ (updateCell DEM a b δ i j - updateCell DEM a b δ i (j+1)) ^ 2 := by
    refine diff_sq_mono DEM a b δ hδ.le i j i (j+1) (by rintro ⟨_, h⟩; omega) ?_ ?_
    · rintro ⟨hia, hjb⟩
      rw [hia, hjb]
      exact hR (by omega)
    · rintro ⟨hia, hjb⟩
      rw [hia, show j = b - 1 from by omega, show b - 1 + 1 = b from by omega]
      exact hL (by omega)
  have hA4 : (DEM i (j+1) - DEM (i+1) (j+1)) ^ 2
      ≤ (updateCell DEM a b δ i (j+1) - updateCell DEM a b δ (i+1) (j+1)) ^ 2 := by
    refine diff_sq_mono DEM a b δ hδ.le i (j+1) (i+1) (j+1) (by rintro ⟨h, _⟩; omega) ?_ ?_
    · rintro ⟨hia, hjb⟩
      rw [hia, hjb]
      exact hD (by omega)
    · rintro ⟨hia, hjb⟩
      rw [hjb, show i = a - 1 from by omega, show a - 1 + 1 = a from by omega]
      exact hU (by omega)
  have hA2 : (DEM i j - DEM (i+1) j) ^ 2
      ≤ (updateCell DEM a b δ i j - updateCell DEM a b δ (i+1) j) ^ 2 := by
    refine diff_sq_mono DEM a b δ hδ.le i j (i+1) j (by rintro ⟨h, _⟩; omega) ?_ ?_
    · rintro ⟨hia, hjb⟩
      rw [hia, hjb]
      exact hD (by omega)
    · rintro ⟨hia, hjb⟩
      rw [hjb, show i = a - 1 from by omega, show a - 1 + 1 = a from by omega]
      exact hU (by omega)
  have hA5 : (DEM (i+1) j - DEM (i+1) (j+1)) ^ 2
      ≤ (updateCell DEM a b δ (i+1) j - updateCell DEM a b δ (i+1) (j+1)) ^ 2 := by
    refine diff_sq_mono DEM a b δ hδ.le (i+1) j (i+1) (j+1) (by rintro ⟨_, h⟩; omega) ?_ ?_
    · rintro ⟨hia, hjb⟩
      rw [hjb, hia]
      exact hR (by omega)
    · rintro ⟨hia, hjb⟩
      rw [hia, show j = b - 1 from by omega, show b - 1 + 1 = b from by omega]
      exact hL (by omega)
  have hup : upTri DEM r i j ≤ upTri (updateCell DEM a b δ) r i j := by
    simp only [upTri]
    exact Real.sqrt_le_sqrt (add_le_add (add_le_add hA1 hA4) le_rfl)
  have hlo : loTri DEM r i j ≤ loTri (updateCell DEM a b δ) r i j := by
    simp only [loTri]
    exact Real.sqrt_le_sqrt (add_le_add (add_le_add hA2 hA5) le_rfl)
  exact mul_le_mul_of_nonneg_left (add_le_add hup hlo) (by positivity)

/-- C6 witness: raising the corner of a flat 2×2 grid. -/
theorem surface_area_update_mono_witness :
    2 ≤ 2 ∧ (0 : ℝ) < 1 ∧ (0 : ℝ) < 1 ∧
    surface_area (fun _ _ => (0 : ℝ)) 2 2 1
      ≤ surface_area (updateCell (fun _ _ => (0 : ℝ)) 0 0 1) 2 2 1 :=
  ⟨le_refl 2, by norm_num, by norm_num,
    surface_area_update_mono (fun _ _ => (0 : ℝ)) 2 2 0 0 1 1 (le_refl 2) (le_refl 2)
      (by norm_num) (by norm_num) (fun _ => le_refl 0)
      (fun h => absurd h (by norm_num)) (fun _ => le_refl 0)
      (fun h => absurd h (by norm_num))⟩

/-- The 3×3 test grid `[[0,0,0],[0,1,0],[0,0,0]]` of `test_known_pyramid`. -/
def pyr : ℕ → ℕ → ℝ :=
  fun x y => if x = 1 ∧ y = 1 then 1 else 0

/-- The inverted pyramid `[[0,0,0],[0,-1,0],[0,0,0]]`. -/
def invPyr : ℕ → ℕ → ℝ :=
  fun x y => if x = 1 ∧ y = 1 then -1 else 0

/-- Exact value of the estimator on the pyramid grid at resolution 1: the fixed TL–BR
triangulation splits two of the four cells against the pyramid's ridge, so the sum is
`1 + √3 + 2√2`, not `4√2`. -/
theorem pyr_eval : surface_area pyr 3 3 1 = 1 + Real.sqrt 3 + 2 * Real.sqrt 2 := by
  rw [surface_area_eq]
  norm_num [Finset.sum_range_succ, Finset.sum_range_zero, upTri, loTri, pyr,
    Real.sqrt_one]
  ring_nf

/-- Exact value of the estimator on the inverted pyramid at resolution 1: the same
`1 + √3 + 2√2` (all squared differences agree with the upright pyramid). -/
theorem invPyr_eval : surface_area invPyr 3 3 1 = 1 + Real.sqrt 3 + 2 * Real.sqrt 2 := by
  rw [surface_area_eq]
  norm_num [Finset.sum_range_succ, Finset.sum_range_zero, upTri, loTri, invPyr,
    Real.sqrt_one]
  ring_nf

/-- Raising the inverted pyramid's center by 1 yields the flat 3×3 grid, of area 4. -/
theorem updated_invPyr_eval : surface_area (updateCell invPyr 1 1 1) 3 3 1 = 4 := by
  rw [surface_area_eq]
  norm_num [Finset.sum_range_succ, Finset.sum_range_zero, upTri, loTri, updateCell,
    invPyr, Real.sqrt_one]

/-- C1 (divergence): on the grid `[[0,0,0],[0,1,0],[0,0,0]]` with resolution 1.0 the
code returns exactly `1 + √3 + 2√2 ≈ 5.5605`, which is not within `1e-3` of
`4√2 ≈ 5.6569` — the expected value printed by `test_known_pyramid` is unattainable
for the implemented triangulation. -/
theorem pyramid_not_four_sqrt_two :
    surface_area pyr 3 3 1 = 1 + Real.sqrt 3 + 2 * Real.sqrt 2 ∧
    0.001 < |surface_area pyr 3 3 1 - 4 * Real.sqrt 2| := by
  refine ⟨pyr_eval, ?_⟩
  rw [pyr_eval]
  have h2a : (1.4142 : ℝ) < Real.sqrt 2 := by
    rw [Real.lt_sqrt (by norm_num)]
    norm_num
  have h3a : Real.sqrt 3 < 1.7321 := by
    rw [Real.sqrt_lt' (by norm_num)]
    norm_num
  have hneg : 1 + Real.sqrt 3 + 2 * Real.sqrt 2 - 4 * Real.sqrt 2 < 0 := by
    nlinarith [Real.sqrt_nonneg 3, Real.sqrt_nonneg 2]
  rw [abs_of_neg hneg]
  nlinarith

/-- C6 (counterexample): increasing the center elevation of `[[0,0,0],[0,-1,0],[0,0,0]]`
by `δ = 1 > 0` strictly DECREASES the result (from `1 + √3 + 2√2 ≈ 5.5605` to `4`). -/
theorem update_can_decrease_area :
    surface_area (updateCell invPyr 1 1 1) 3 3 1 < surface_area invPyr 3 3 1 := by
  rw [updated_invPyr_eval, invPyr_eval]
  have h3 : (1 : ℝ) < Real.sqrt 3 := by
    rw [Real.lt_sqrt (by norm_num)]
    norm_num
  have h2 : (1 : ℝ) < Real.sqrt 2 := by
    rw [Real.lt_sqrt (by norm_num)]
    norm_num
  linarith

/-- C4 (divergence): with a negative resolution the code silently computes a numeric
result — the resolution only enters squared, so `surface_area([[0,0],[0,0]], -1) = 1`
instead of an invalid-argument error. -/
theorem negative_resolution_returns_value :
    surface_area (fun _ _ => (0 : ℝ)) 2 2 (-1) = 1 := by
  rw [surface_area_eq]
  norm_num [Finset.sum_range_succ, Finset.sum_range_zero, upTri, loTri, Real.sqrt_one]

/-- C8 (exact-arithmetic part): for every grid, resolution and neighborhood, both Heron
radicands that `surface_area` passes to the square root are nonnegative in exact real
arithmetic (each equals `(r/2)² * (p² + q² + r²)`); the code performs no clamping, and
negative radicands can arise only from floating-point rounding. -/
theorem radicands_nonneg (DEM : ℕ → ℕ → ℝ) (r : ℝ) (i j : ℕ) :
    0 ≤ s1 DEM r i j * (s1 DEM r i j - m3 DEM r i j) * (s1 DEM r i j - m5 DEM r i j) *
        (s1 DEM r i j - m2 DEM r i j) ∧
    0 ≤ s2 DEM r i j * (s2 DEM r i j - m3 DEM r i j) * (s2 DEM r i j - m4 DEM r i j) *
        (s2 DEM r i j - m1 DEM r i j) := by
  constructor
  · have hA : m3 DEM r i j ^ 2
        = ((DEM i j - DEM (i+1) j) + (DEM (i+1) j - DEM (i+1) (j+1))) ^ 2 + 2 * r ^ 2 := by
      rw [show ((DEM i j - DEM (i+1) j) + (DEM (i+1) j - DEM (i+1) (j+1))) ^ 2
          = (DEM i j - DEM (i+1) (j+1)) ^ 2 from by ring]
      exact Real.sq_sqrt (by positivity)
    have hB : m5 DEM r i j ^ 2 = (DEM (i+1) j - DEM (i+1) (j+1)) ^ 2 + r ^ 2 :=
      Real.sq_sqrt (by positivity)
    have hC : m2 DEM r i j ^ 2 = (DEM i j - DEM (i+1) j) ^ 2 + r ^ 2 :=
      Real.sq_sqrt (by positivity)
    have h := heron_radicand (m3 DEM r i j) (m5 DEM r i j) (m2 DEM r i j) _ _ r hA hB hC
    simp only [s1]
    rw [h]
    positivity
  · have hA : m3 DEM r i j ^ 2
        = ((DEM i j - DEM i (j+1)) + (DEM i (j+1) - DEM (i+1) (j+1))) ^ 2 + 2 * r ^ 2 := by
      rw [show ((DEM i j - DEM i (j+1)) + (DEM i (j+1) - DEM (i+1) (j+1))) ^ 2
          = (DEM i j - DEM (i+1) (j+1)) ^ 2 from by ring]
      exact Real.sq_sqrt (by positivity)
    have hB : m4 DEM r i j ^ 2 = (DEM i (j+1) - DEM (i+1) (j+1)) ^ 2 + r ^ 2 :=
      Real.sq_sqrt (by positivity)
    have hC : m1 DEM r i j ^ 2 = (DEM i j - DEM i (j+1)) ^ 2 + r ^ 2 :=
      Real.sq_sqrt (by positivity)
    have h := heron_radicand (m3 DEM r i j) (m4 DEM r i j) (m1 DEM r i j) _ _ r hA hB hC
    simp only [s2]
    rw [h]
    positivity

end
